import Mathlib

/-!
Shallow embedding of the donkeytownsfolk deck-pricing core
(src/database.go, src/prices.go) and proofs about it.

Conventions of the embedding:
* Go `Money` (a float64) is modelled as `Rat`: the claims under study are
  about the algorithms (sums, comparisons, minima), not float rounding.
* Go slices of pointers are modelled as `List` of values, except where a
  claim is about aliasing (the snapshot-clone claim), which gets an
  explicit heap model.
* Go `nil` pointers are modelled with `Option`; a nil-pointer dereference
  (a Go runtime panic) is modelled by returning `none` from the function
  that would have panicked.
* Character classification (`unicode.IsUpper` etc.) is modelled on the
  ASCII range, which is the range the repository's card names and scraped
  text use.
-/

namespace Donkeytownsfolk

/-- Models `type Money float64` (src/database.go) as exact rationals. -/
abbrev Money : Type := Rat

/-- Models `Free Money = 0` (src/database.go). -/
def Free : Money := 0

/-- Models `type CardEntry struct` (src/database.go). -/
structure CardEntry where
  Name : String
  Count : Int
  PricePer : Money
  NotFound : Bool
deriving DecidableEq

/-- Models `type CommanderEntry struct` (src/database.go). -/
structure CommanderEntry where
  Name : String
  Price : Money
  IsPresent : Bool
  NotFound : Bool
deriving DecidableEq

/-- Models `type Snapshot struct` (src/database.go); the `Date` field is an
abstract timestamp. -/
structure Snapshot where
  Date : Nat
  Decklist : List CardEntry
  Sideboard : List CardEntry
  Commander : CommanderEntry
  IsGrandfatherLegal : Bool
deriving DecidableEq

/-- Models `type Deck struct` (src/database.go); `CreationDate` is an
abstract timestamp. -/
structure Deck where
  Name : String
  CreationDate : Nat
  PriceLimit : Money
  StagingArea : Snapshot
  Snapshots : List Snapshot
deriving DecidableEq

/-- Models `func (c *CardEntry) TotalPrice() Money` (src/database.go):
`c.PricePer * Money(c.Count)`. -/
def CardEntry.TotalPrice (c : CardEntry) : Money :=
  c.PricePer * (c.Count : Money)

/-- Models `func (s *Snapshot) TotalPrice() Money` (src/database.go):
starts from `Free`, adds every decklist entry's total, every sideboard
entry's total, and the commander's price when present. -/
def Snapshot.TotalPrice (s : Snapshot) : Money :=
  let r1 := s.Decklist.foldl (fun r c => r + c.TotalPrice) Free
  let r2 := s.Sideboard.foldl (fun r c => r + c.TotalPrice) r1
  if s.Commander.IsPresent then r2 + s.Commander.Price else r2

/-- Models `func (s *Snapshot) DecklistDump() string` (src/database.go):
the concatenation of `"%d %s\n"` lines over the decklist. -/
def Snapshot.DecklistDump (s : Snapshot) : String :=
  s.Decklist.foldl (fun b c => b ++ (toString c.Count ++ " " ++ c.Name ++ "\n")) ""

/-- Models `func (s *Snapshot) SideboardDump() string` (src/database.go). -/
def Snapshot.SideboardDump (s : Snapshot) : String :=
  s.Sideboard.foldl (fun b c => b ++ (toString c.Count ++ " " ++ c.Name ++ "\n")) ""

/-- Models `func (s *Snapshot) HasIdenticalCards(other *Snapshot) bool`
(src/database.go): compares the two dump strings, the commander's presence
and the commander's name — prices play no part. -/
def Snapshot.HasIdenticalCards (s other : Snapshot) : Bool :=
  s.DecklistDump == other.DecklistDump &&
    s.SideboardDump == other.SideboardDump &&
    s.Commander.IsPresent == other.Commander.IsPresent &&
    s.Commander.Name == other.Commander.Name

/-- Models the backward scan of `func (d *Deck) CurrentPriceSnapshot()`
(src/database.go): `older` lists the strictly older snapshots, most recent
first; the scan breaks at the first snapshot whose cards differ from the
most recent snapshot and keeps the current best on ties. -/
def scanBest (lastSnap best : Snapshot) : List Snapshot → Snapshot
  | [] => best
  | s :: rest =>
    if s.HasIdenticalCards lastSnap then
      scanBest lastSnap (if s.TotalPrice < best.TotalPrice then s else best) rest
    else best

/-- Models `func (d *Deck) CurrentPriceSnapshot() *Snapshot`
(src/database.go): `nil` for an empty history, else the backward scan
starting from the most recent snapshot. -/
def Deck.CurrentPriceSnapshot (d : Deck) : Option Snapshot :=
  match d.Snapshots.reverse with
  | [] => none
  | lastSnap :: older => some (scanBest lastSnap lastSnap older)

/-- Models `func (d *Deck) IsSnapshotLegal(s *Snapshot) bool`
(src/database.go). The Go function dereferences `s.Commander` on its first
line, BEFORE its `s != nil` guard on its last line, so calling it with a
nil snapshot is a nil-pointer panic, modelled here by `none`. -/
def Deck.IsSnapshotLegal (d : Deck) (s : Option Snapshot) : Option Bool :=
  match s with
  | none => none
  | some s =>
    if s.Commander.IsPresent && s.Commander.NotFound then some false
    else if s.Decklist.any (fun c => c.NotFound) then some false
    else if s.Sideboard.any (fun c => c.NotFound) then some false
    else some (s.IsGrandfatherLegal || decide (s.TotalPrice ≤ d.PriceLimit))

/-- Models `func (d *Deck) IsLegal() bool` (src/database.go). -/
def Deck.IsLegal (d : Deck) : Option Bool :=
  d.IsSnapshotLegal d.CurrentPriceSnapshot

/-- Models `func (d *Deck) IsStagingAreaLegal() bool` (src/database.go). -/
def Deck.IsStagingAreaLegal (d : Deck) : Option Bool :=
  d.IsSnapshotLegal (some d.StagingArea)

/-- The legality condition in the words of the spec (section 4.5): no
commander or entry marked notFound, and then grandfathered or total price
within the deck's limit. -/
def SpecSnapshotLegal (d : Deck) (s : Snapshot) : Prop :=
  (¬ ((s.Commander.IsPresent ∧ s.Commander.NotFound) ∨
      (∃ c ∈ s.Decklist, c.NotFound) ∨ (∃ c ∈ s.Sideboard, c.NotFound))) ∧
    (s.IsGrandfatherLegal ∨ s.TotalPrice ≤ d.PriceLimit)

instance (d : Deck) (s : Snapshot) : Decidable (SpecSnapshotLegal d s) := by
  unfold SpecSnapshotLegal
  exact inferInstance

/-- C1: on an actual (non-nil) snapshot, `IsSnapshotLegal` returns exactly
the spec's legality condition: false when the commander (if present) or any
decklist/sideboard entry is marked notFound, otherwise true iff the
snapshot is grandfathered or its total price is within the deck's price
limit. -/
theorem c1_isSnapshotLegal_spec (d : Deck) (s : Snapshot) :
    d.IsSnapshotLegal (some s) = some (decide (SpecSnapshotLegal d s)) := by
  show (if (s.Commander.IsPresent && s.Commander.NotFound) = true then some false
      else if (s.Decklist.any fun c => c.NotFound) = true then some false
      else if (s.Sideboard.any fun c => c.NotFound) = true then some false
      else some (s.IsGrandfatherLegal || decide (s.TotalPrice ≤ d.PriceLimit)))
    = some (decide (SpecSnapshotLegal d s))
  by_cases h1 : (s.Commander.IsPresent && s.Commander.NotFound) = true
  · have hns : ¬ SpecSnapshotLegal d s := by
      simp only [Bool.and_eq_true] at h1
      intro hc
      exact hc.1 (Or.inl ⟨h1.1, h1.2⟩)
    rw [if_pos h1, decide_eq_false hns]
  · rw [if_neg h1]
    by_cases h2 : (s.Decklist.any fun c => c.NotFound) = true
    · have hns : ¬ SpecSnapshotLegal d s := by
        rw [List.any_eq_true] at h2
        obtain ⟨c, hc, hcn⟩ := h2
        intro hc2
        exact hc2.1 (Or.inr (Or.inl ⟨c, hc, hcn⟩))
      rw [if_pos h2, decide_eq_false hns]
    · rw [if_neg h2]
      by_cases h3 : (s.Sideboard.any fun c => c.NotFound) = true
      · have hns : ¬ SpecSnapshotLegal d s := by
          rw [List.any_eq_true] at h3
          obtain ⟨c, hc, hcn⟩ := h3
          intro hc2
          exact hc2.1 (Or.inr (Or.inr ⟨c, hc, hcn⟩))
        rw [if_pos h3, decide_eq_false hns]
      · rw [if_neg h3]
        have hnone : ¬ ((s.Commander.IsPresent = true ∧ s.Commander.NotFound = true) ∨
            (∃ c ∈ s.Decklist, c.NotFound = true) ∨
            (∃ c ∈ s.Sideboard, c.NotFound = true)) := by
          rw [Bool.not_eq_true] at h1 h2 h3
          rintro (⟨hp, hn⟩ | ⟨c, hc, hcn⟩ | ⟨c, hc, hcn⟩)
          · simp [hp, hn] at h1
          · have := List.any_eq_false.mp h2 c hc
            simp [hcn] at this
          · have := List.any_eq_false.mp h3 c hc
            simp [hcn] at this
        have hiff : SpecSnapshotLegal d s ↔
            (s.IsGrandfatherLegal = true ∨ s.TotalPrice ≤ d.PriceLimit) := by
          unfold SpecSnapshotLegal
          exact and_iff_right hnone
        by_cases hg : s.IsGrandfatherLegal = true
        · rw [decide_eq_true (hiff.mpr (Or.inl hg)), hg]
          simp
        · rw [Bool.not_eq_true] at hg
          by_cases hle : s.TotalPrice ≤ d.PriceLimit
          · rw [decide_eq_true (hiff.mpr (Or.inr hle)), hg, decide_eq_true hle]
            simp
          · have hns : ¬ SpecSnapshotLegal d s := fun hsp =>
              (hiff.mp hsp).elim (fun h => by simp [h] at hg) hle
            rw [decide_eq_false hns, hg, decide_eq_false hle]
            simp

/-- C3: a deck with zero snapshots has `CurrentPriceSnapshot = nil`, and
`IsLegal` dereferences that nil snapshot before its nil check, so it
panics (`none`) instead of returning false; shown in general and on a
concrete empty deck. -/
theorem c3_isLegal_empty_panics :
    (∀ d : Deck, d.Snapshots = [] → d.IsLegal = none) ∧
    (Deck.IsLegal ⟨"d", 0, 10, ⟨0, [], [], ⟨"", 0, false, false⟩, false⟩, []⟩
      = none) := by
  constructor
  · intro d h
    simp [Deck.IsLegal, Deck.CurrentPriceSnapshot, h, Deck.IsSnapshotLegal]
  · rfl

/-! ### The current-price snapshot scan (claim C2) -/

/-- The pure minimum-tracking part of the `CurrentPriceSnapshot` loop:
fold over the already-cut run, replacing the best only on strictly lower
total price. -/
def foldMin (b : Snapshot) : List Snapshot → Snapshot
  | [] => b
  | s :: rest => foldMin (if s.TotalPrice < b.TotalPrice then s else b) rest

/-- Predicate `minIn l s`: `s` has minimal total price among the snapshots of `l`. -/
def minIn (l : List Snapshot) (s : Snapshot) : Bool :=
  l.all fun x => decide (s.TotalPrice ≤ x.TotalPrice)

theorem scanBest_eq_foldMin (lastSnap : Snapshot) (older : List Snapshot) :
    ∀ b, scanBest lastSnap b older =
      foldMin b (older.takeWhile fun s => s.HasIdenticalCards lastSnap) := by
  induction older with
  | nil => intro b; rfl
  | cons s rest ih =>
    intro b
    rw [List.takeWhile_cons]
    by_cases h : s.HasIdenticalCards lastSnap = true
    · rw [scanBest, if_pos h, if_pos h, foldMin, ih]
    · rw [scanBest, if_neg h, if_neg h, foldMin]

theorem find_congr_local {α : Type} (l : List α) (p q : α → Bool)
    (h : ∀ a ∈ l, p a = q a) : l.find? p = l.find? q := by
  induction l with
  | nil => rfl
  | cons x xs ih =>
    rw [List.find?, List.find?, h x (List.mem_cons_self x xs)]
    by_cases hq : q x = true
    · rw [hq]
    · rw [Bool.not_eq_true] at hq
      rw [hq]
      exact ih fun a ha => h a (List.mem_cons_of_mem x ha)

theorem minIn_cons (y : Snapshot) (l : List Snapshot) (s : Snapshot) :
    minIn (y :: l) s = (decide (s.TotalPrice ≤ y.TotalPrice) && minIn l s) := by
  unfold minIn
  rw [List.all_cons]

/-- The `CurrentPriceSnapshot` fold returns the first (most recent) element
of the run that attains the run's minimum total price. -/
theorem foldMin_find (xs : List Snapshot) :
    ∀ b, (b :: xs).find? (minIn (b :: xs)) = some (foldMin b xs) := by
  induction xs with
  | nil =>
    intro b
    have hb : minIn [b] b = true := by
      rw [minIn_cons]
      simp [minIn]
    rw [List.find?_cons_of_pos _ hb]
    rfl
  | cons x xs ih =>
    intro b
    by_cases hx : x.TotalPrice < b.TotalPrice
    · -- the head is beaten: it cannot be minimal, and dropping it does not
      -- change minimality of the rest
      have hpb : ¬ minIn (b :: x :: xs) b = true := by
        rw [minIn_cons, minIn_cons, decide_eq_false (not_le.mpr hx)]
        simp
      have hpt : ∀ a ∈ x :: xs, minIn (b :: x :: xs) a = minIn (x :: xs) a := by
        intro a _
        rw [minIn_cons]
        by_cases hm : minIn (x :: xs) a = true
        · have hax : a.TotalPrice ≤ x.TotalPrice := by
            rw [minIn_cons, Bool.and_eq_true] at hm
            exact of_decide_eq_true hm.1
          rw [hm, decide_eq_true (le_trans hax (le_of_lt hx)), Bool.true_and]
        · rw [Bool.not_eq_true] at hm
          rw [hm, Bool.and_false]
      rw [List.find?_cons_of_neg _ hpb, find_congr_local _ _ _ hpt, ih x,
        foldMin, if_pos hx]
    · -- the head survives: the new element is never strictly better, so the
      -- scan over `b :: xs` is unchanged
      have hbx : b.TotalPrice ≤ x.TotalPrice := le_of_not_lt hx
      have hpt : ∀ a, minIn (b :: x :: xs) a = minIn (b :: xs) a := by
        intro a
        rw [minIn_cons, minIn_cons, minIn_cons]
        by_cases hab : a.TotalPrice ≤ b.TotalPrice
        · rw [decide_eq_true (le_trans hab hbx), Bool.true_and]
        · rw [decide_eq_false hab]
          simp
      have hfold : foldMin b (x :: xs) = foldMin b xs := by
        rw [foldMin, if_neg hx]
      rw [hfold]
      by_cases hqb : minIn (b :: xs) b = true
      · have h1 : minIn (b :: x :: xs) b = true := by
          rw [hpt b]
          exact hqb
        have h2 := ih b
        rw [List.find?_cons_of_pos _ hqb] at h2
        rw [List.find?_cons_of_pos _ h1]
        exact h2
      · have h1 : ¬ minIn (b :: x :: xs) b = true := by
          rw [hpt b]
          exact hqb
        have hpx : ¬ minIn (b :: x :: xs) x = true := by
          intro hc
          apply hqb
          rw [minIn_cons, Bool.and_eq_true] at hc
          obtain ⟨hxb, hc2⟩ := hc
          rw [minIn_cons, Bool.and_eq_true] at hc2
          rw [minIn_cons, Bool.and_eq_true]
          refine ⟨decide_eq_true (le_refl _), ?_⟩
          unfold minIn
          rw [List.all_eq_true]
          intro z hz
          exact decide_eq_true
            (le_trans hbx (of_decide_eq_true (List.all_eq_true.mp hc2.2 z hz)))
        have h2 := ih b
        rw [List.find?_cons_of_neg _ hqb] at h2
        rw [List.find?_cons_of_neg _ h1, List.find?_cons_of_neg _ hpx,
          find_congr_local xs (minIn (b :: x :: xs)) (minIn (b :: xs))
            fun a _ => hpt a]
        exact h2

/-- An absent commander, for the concrete example snapshots. -/
def cmdrNone : CommanderEntry := ⟨"", 0, false, false⟩

/-- Example snapshot with cards A at total price 12. -/
def snapA12 : Snapshot := ⟨1, [⟨"A", 1, 12, false⟩], [], cmdrNone, false⟩

/-- Example snapshot with cards B at total price 10. -/
def snapB10 : Snapshot := ⟨2, [⟨"B", 1, 10, false⟩], [], cmdrNone, false⟩

/-- Example snapshot with cards B at total price 8. -/
def snapB8 : Snapshot := ⟨3, [⟨"B", 1, 8, false⟩], [], cmdrNone, false⟩

/-- Example deck with snapshot history [(cardsA,12),(cardsB,10),(cardsB,8)]. -/
def deckX : Deck := ⟨"x", 0, 20, snapA12, [snapA12, snapB10, snapB8]⟩

/-- Example deck with snapshot history [(cardsA,12),(cardsB,8),(cardsB,10)]. -/
def deckY : Deck := ⟨"y", 0, 20, snapA12, [snapA12, snapB8, snapB10]⟩

theorem priceB10 : snapB10.TotalPrice = 10 := by
  simp [snapB10, Snapshot.TotalPrice, CardEntry.TotalPrice, Free, cmdrNone]

theorem priceB8 : snapB8.TotalPrice = 8 := by
  simp [snapB8, Snapshot.TotalPrice, CardEntry.TotalPrice, Free, cmdrNone]

/-- C2: `CurrentPriceSnapshot` returns none on an empty history; otherwise,
writing the history most-recent-first as `lastSnap :: older`, it returns
the first (hence most recent, so ties keep the more recent snapshot)
element of the contiguous identical-cards run `lastSnap :: takeWhile ...`
that attains the run's minimum total price.  On the two spec examples it
returns the price-8 snapshot both times. -/
theorem c2_currentPriceSnapshot :
    (∀ d : Deck,
      (d.Snapshots = [] → d.CurrentPriceSnapshot = none) ∧
      (∀ lastSnap older, d.Snapshots.reverse = lastSnap :: older →
        d.CurrentPriceSnapshot =
          (lastSnap :: older.takeWhile fun s => s.HasIdenticalCards lastSnap).find?
            (minIn (lastSnap :: older.takeWhile fun s => s.HasIdenticalCards lastSnap)))) ∧
    deckX.CurrentPriceSnapshot = some snapB8 ∧
    deckY.CurrentPriceSnapshot = some snapB8 := by
  refine ⟨fun d => ⟨fun h => ?_, fun lastSnap older h => ?_⟩, ?_, ?_⟩
  · unfold Deck.CurrentPriceSnapshot
    rw [h]
    rfl
  · unfold Deck.CurrentPriceSnapshot
    rw [h]
    show some (scanBest lastSnap lastSnap older) = _
    rw [scanBest_eq_foldMin, foldMin_find]
  · have h0 : deckX.CurrentPriceSnapshot
        = some (scanBest snapB8 snapB8 [snapB10, snapA12]) := rfl
    have hid1 : snapB10.HasIdenticalCards snapB8 = true := by decide
    have hid2 : ¬ snapA12.HasIdenticalCards snapB8 = true := by decide
    have hlt : ¬ snapB10.TotalPrice < snapB8.TotalPrice := by
      rw [priceB10, priceB8]
      norm_num
    rw [h0, scanBest, if_pos hid1, if_neg hlt, scanBest, if_neg hid2]
  · have h0 : deckY.CurrentPriceSnapshot
        = some (scanBest snapB10 snapB10 [snapB8, snapA12]) := rfl
    have hid1 : snapB8.HasIdenticalCards snapB10 = true := by decide
    have hid2 : ¬ snapA12.HasIdenticalCards snapB10 = true := by decide
    have hlt : snapB8.TotalPrice < snapB10.TotalPrice := by
      rw [priceB10, priceB8]
      norm_num
    rw [h0, scanBest, if_pos hid1, if_pos hlt, scanBest, if_neg hid2]

/-! ### The normalizer (claim C8)

Character classification models Go's `unicode` package on the ASCII
range (`unicode.IsUpper`, `unicode.IsLower`, `unicode.IsNumber`,
`unicode.IsLetter`, `unicode.ToLower`). -/

/-- Models `unicode.IsUpper` (ASCII range). -/
def goIsUpper (c : Char) : Bool := decide (65 ≤ c.toNat ∧ c.toNat ≤ 90)

/-- Models `unicode.IsLower` (ASCII range). -/
def goIsLower (c : Char) : Bool := decide (97 ≤ c.toNat ∧ c.toNat ≤ 122)

/-- Models `unicode.IsNumber` (ASCII range). -/
def goIsDigit (c : Char) : Bool := decide (48 ≤ c.toNat ∧ c.toNat ≤ 57)

/-- Models `unicode.IsLetter` (ASCII range). -/
def goIsLetter (c : Char) : Bool := goIsUpper c || goIsLower c

/-- Models `unicode.ToLower` (ASCII range). -/
def goToLower (c : Char) : Char :=
  if goIsUpper c then Char.ofNat (c.toNat + 32) else c

/-- Models `func normalizeRune(r rune) rune` (src/database.go). -/
def normalizeRune (c : Char) : Char :=
  if goIsLower c || goIsDigit c then c
  else if goIsUpper c then goToLower c
  else '-'

/-- Models `func normalizeString(s string) string` (src/database.go): the
loop skips every literal `$` and writes `normalizeRune` of every other
rune, i.e. it maps `normalizeRune` over the string with `$` filtered
out. -/
def normalizeString (s : String) : String :=
  String.mk ((s.data.filter fun c => c != '$').map normalizeRune)

/-- Models `func nameToId(name string) string` (src/prices.go): keeps only
letters and numbers, lower-cased. -/
def nameToId (name : String) : String :=
  String.mk ((name.data.filter fun c => goIsLetter c || goIsDigit c).map goToLower)

theorem goToLower_isLower (c : Char) (h : goIsUpper c = true) :
    goIsLower (goToLower c) = true := by
  rw [goToLower, if_pos h]
  rw [goIsUpper, decide_eq_true_eq] at h
  obtain ⟨h1, h2⟩ := h
  generalize c.toNat = n at h1 h2 ⊢
  interval_cases n <;> decide

theorem goToLower_of_not_upper (c : Char) (h : ¬ goIsUpper c = true) :
    goToLower c = c := by
  rw [goToLower, if_neg h]

theorem goIsLower_not_upper (c : Char) (h : goIsLower c = true) :
    goIsUpper c = false := by
  rw [goIsLower, decide_eq_true_eq] at h
  rw [goIsUpper, decide_eq_false_iff_not]
  omega

theorem goIsDigit_not_upper (c : Char) (h : goIsDigit c = true) :
    goIsUpper c = false := by
  rw [goIsDigit, decide_eq_true_eq] at h
  rw [goIsUpper, decide_eq_false_iff_not]
  omega

theorem normalizeRune_idem (c : Char) :
    normalizeRune (normalizeRune c) = normalizeRune c := by
  by_cases h1 : (goIsLower c || goIsDigit c) = true
  · have hin : normalizeRune c = c := by rw [normalizeRune, if_pos h1]
    rw [hin]
    exact hin
  · by_cases h2 : goIsUpper c = true
    · have hin : normalizeRune c = goToLower c := by
        rw [normalizeRune, if_neg h1, if_pos h2]
      rw [hin, normalizeRune,
        if_pos (by rw [goToLower_isLower c h2, Bool.true_or])]
    · have hin : normalizeRune c = '-' := by
        rw [normalizeRune, if_neg h1, if_neg h2]
      rw [hin]
      decide

theorem normalizeRune_ne_dollar (c : Char) : (normalizeRune c != '$') = true := by
  rw [normalizeRune]
  by_cases h1 : (goIsLower c || goIsDigit c) = true
  · rw [if_pos h1]
    rw [Bool.or_eq_true] at h1
    rcases h1 with h | h
    · rw [goIsLower, decide_eq_true_eq] at h
      rw [bne_iff_ne]
      intro he
      rw [he] at h
      revert h
      decide
    · rw [goIsDigit, decide_eq_true_eq] at h
      rw [bne_iff_ne]
      intro he
      rw [he] at h
      revert h
      decide
  · rw [if_neg h1]
    by_cases h2 : goIsUpper c = true
    · rw [if_pos h2]
      have := goToLower_isLower c h2
      rw [goIsLower, decide_eq_true_eq] at this
      rw [bne_iff_ne]
      intro he
      rw [he] at this
      revert this
      decide
    · rw [if_neg h2]
      decide

theorem goToLower_keeps_alnum (c : Char)
    (h : (goIsLetter c || goIsDigit c) = true) :
    ((goIsLetter (goToLower c) || goIsDigit (goToLower c)) = true) ∧
      goToLower (goToLower c) = goToLower c := by
  by_cases hu : goIsUpper c = true
  · have hlow : goIsLower (goToLower c) = true := goToLower_isLower c hu
    constructor
    · rw [goIsLetter, hlow, Bool.or_true, Bool.true_or]
    · rw [goToLower, if_neg (by simp [goIsLower_not_upper _ hlow])]
  · have he : goToLower c = c := goToLower_of_not_upper c hu
    rw [he]
    exact ⟨h, he⟩

/-- C8: both normalization flavors are idempotent; the search-key flavor is
case-insensitive on the spec's example; and the price-ID flavor identifies
"Lightning Bolt" with "lightning-bolt". -/
theorem c8_normalizer :
    (∀ s : String, normalizeString (normalizeString s) = normalizeString s) ∧
    (∀ s : String, nameToId (nameToId s) = nameToId s) ∧
    normalizeString "Island" = normalizeString "ISLAND" ∧
    nameToId "Lightning Bolt" = nameToId "lightning-bolt" := by
  refine ⟨fun s => ?_, fun s => ?_, by decide, by decide⟩
  · have hf : ∀ a ∈ (s.data.filter fun c => c != '$').map normalizeRune,
        (a != '$') = true := by
      intro a ha
      rw [List.mem_map] at ha
      obtain ⟨b, _, hb⟩ := ha
      rw [← hb]
      exact normalizeRune_ne_dollar b
    rw [normalizeString, normalizeString]
    show String.mk ((((s.data.filter fun c => c != '$').map
      normalizeRune).filter fun c => c != '$').map normalizeRune) = _
    rw [List.filter_eq_self.mpr hf, List.map_map]
    congr 1
    apply List.map_congr_left
    intro a _
    exact normalizeRune_idem a
  · have hg : ∀ a ∈ (s.data.filter fun c => goIsLetter c || goIsDigit c).map
        goToLower, (goIsLetter a || goIsDigit a) = true := by
      intro a ha
      rw [List.mem_map] at ha
      obtain ⟨b, hbm, hb⟩ := ha
      rw [← hb]
      exact (goToLower_keeps_alnum b (List.mem_filter.mp hbm).2).1
    rw [nameToId, nameToId]
    show String.mk ((((s.data.filter fun c => goIsLetter c || goIsDigit c).map
      goToLower).filter fun c => goIsLetter c || goIsDigit c).map goToLower) = _
    rw [List.filter_eq_self.mpr hg, List.map_map]
    congr 1
    apply List.map_congr_left
    intro a ha
    exact (goToLower_keeps_alnum a (List.mem_filter.mp ha).2).2

/-! ### The decklist parser (claims C6, C7, C10)

`ParseCardEntryLine` matches the Go regexp `(?:([0-9]+)[xX]?\s+)?(\w.+)`
with `FindAllStringSubmatch`.  The regexp is embedded as a direct matcher
with Go's leftmost-first semantics; the character classes are the Go
(RE2) defaults: `[0-9]`, `\w` = `[0-9A-Za-z_]`, `\s` = `[\t\n\f\r ]`,
and `.` = any rune but `\n`. -/

/-- Models the regexp class `\w` = `[0-9A-Za-z_]`. -/
def isWordChar (c : Char) : Bool :=
  goIsDigit c || goIsUpper c || goIsLower c || decide (c.toNat = 95)

/-- Models the regexp class `\s` = `[\t\n\f\r ]`. -/
def isReSpace (c : Char) : Bool :=
  decide (c.toNat = 9 ∨ c.toNat = 10 ∨ c.toNat = 12 ∨ c.toNat = 13 ∨ c.toNat = 32)

/-- Models the group `(\w.+)`: one word character, then one or more
characters other than `\n`; `.+` is greedy and nothing follows it in the
pattern, so the name runs to the next `\n` or the end.  Returns the name
and the rest of the input. -/
def matchName : List Char → Option (List Char × List Char)
  | [] => none
  | c :: rest =>
    if isWordChar c then
      if (rest.takeWhile fun x => x != '\n').isEmpty then none
      else some (c :: rest.takeWhile fun x => x != '\n',
        rest.dropWhile fun x => x != '\n')
    else none

/-- Models `\s+` followed by `(\w.+)`.  The blank run is taken maximal:
giving blanks back cannot ever help, because the character a shorter run
would stop at is still a blank and `\s` and `\w` are disjoint. -/
def matchSpacesName (l : List Char) : Option (List Char × List Char) :=
  if (l.takeWhile isReSpace).isEmpty then none
  else matchName (l.dropWhile isReSpace)

/-- The second half of the optional count group once the digits are cut:
`\s+` then the name, keeping the digit group for the result. -/
def tryCountNoX (ds afterDs : List Char) :
    Option (List Char × List Char × List Char) :=
  match matchSpacesName afterDs with
  | some (nm, rest) => some (ds, nm, rest)
  | none => none

/-- Models the optional group `([0-9]+)[xX]?\s+` followed by the name.
The digit run is maximal (a shorter run would be followed by a digit,
which neither `[xX]` nor `\s` accepts); the optional `x`/`X` is tried
consumed first, then skipped, as backtracking does. -/
def tryCount (l : List Char) : Option (List Char × List Char × List Char) :=
  if (l.takeWhile goIsDigit).isEmpty then none
  else
    match l.dropWhile goIsDigit with
    | [] => none
    | x :: r2 =>
      if x == 'x' || x == 'X' then
        match matchSpacesName r2 with
        | some (nm, rest) => some (l.takeWhile goIsDigit, nm, rest)
        | none => tryCountNoX (l.takeWhile goIsDigit) (x :: r2)
      else tryCountNoX (l.takeWhile goIsDigit) (x :: r2)

/-- One attempt of the whole pattern at the head of the input, optional
count group first (leftmost-first semantics).  Returns the count group
(empty when absent), the name group, and the rest after the match. -/
def matchAtPos (l : List Char) : Option (List Char × List Char × List Char) :=
  match tryCount l with
  | some m => some m
  | none =>
    match matchName l with
    | some (nm, rest) => some ([], nm, rest)
    | none => none

theorem takeDrop_length (p : Char → Bool) (l : List Char) :
    (l.takeWhile p).length + (l.dropWhile p).length = l.length := by
  have h : l.takeWhile p ++ l.dropWhile p = l :=
    List.takeWhile_append_dropWhile p l
  have := congrArg List.length h
  rw [List.length_append] at this
  exact this

theorem length_pos_of_not_isEmpty {l : List Char} (h : ¬ l.isEmpty = true) :
    0 < l.length := by
  cases l with
  | nil => exact absurd rfl h
  | cons a t => exact Nat.succ_pos _

theorem matchName_length (l nm rest : List Char)
    (h : matchName l = some (nm, rest)) : rest.length + 2 ≤ l.length := by
  match l with
  | [] => simp [matchName] at h
  | c :: r =>
    rw [matchName] at h
    split at h
    · split at h
      next => simp at h
      next hb =>
        rw [Option.some.injEq, Prod.mk.injEq] at h
        obtain ⟨h1, h2⟩ := h
        have hsum := takeDrop_length (fun x => x != '\n') r
        have hpos := length_pos_of_not_isEmpty hb
        rw [← h2, List.length_cons]
        omega
    · simp at h

theorem matchSpacesName_length (l nm rest : List Char)
    (h : matchSpacesName l = some (nm, rest)) : rest.length + 2 ≤ l.length := by
  rw [matchSpacesName] at h
  split at h
  · simp at h
  · have := matchName_length _ _ _ h
    have hd := takeDrop_length isReSpace l
    omega

theorem tryCountNoX_length (ds afterDs g1 nm rest : List Char)
    (h : tryCountNoX ds afterDs = some (g1, nm, rest)) :
    rest.length + 2 ≤ afterDs.length := by
  rw [tryCountNoX] at h
  split at h
  next nm2 rest2 hm =>
    rw [Option.some.injEq, Prod.mk.injEq, Prod.mk.injEq] at h
    obtain ⟨h1, h2, h3⟩ := h
    rw [← h3]
    exact matchSpacesName_length _ _ _ hm
  next => simp at h

theorem tryCount_length (l g1 nm rest : List Char)
    (h : tryCount l = some (g1, nm, rest)) : rest.length + 2 ≤ l.length := by
  rw [tryCount] at h
  split at h
  · simp at h
  next hd =>
    have hds := length_pos_of_not_isEmpty hd
    have hsum := takeDrop_length goIsDigit l
    split at h
    next hdrop => simp at h
    next x r2 hdrop =>
      rw [hdrop, List.length_cons] at hsum
      split at h
      · split at h
        next nm2 rest2 hm =>
          rw [Option.some.injEq, Prod.mk.injEq, Prod.mk.injEq] at h
          obtain ⟨h1, h2, h3⟩ := h
          have := matchSpacesName_length _ _ _ hm
          rw [← h3]
          omega
        next =>
          have := tryCountNoX_length _ _ _ _ _ h
          rw [List.length_cons] at this
          omega
      · have := tryCountNoX_length _ _ _ _ _ h
        rw [List.length_cons] at this
        omega

theorem matchAtPos_length (l g1 nm rest : List Char)
    (h : matchAtPos l = some (g1, nm, rest)) : rest.length + 2 ≤ l.length := by
  rw [matchAtPos] at h
  split at h
  next m hc =>
    rw [Option.some.injEq] at h
    rw [h] at hc
    exact tryCount_length _ _ _ _ hc
  next hc =>
    split at h
    next nm2 rest2 hn =>
      rw [Option.some.injEq, Prod.mk.injEq, Prod.mk.injEq] at h
      obtain ⟨h1, h2, h3⟩ := h
      rw [← h3]
      exact matchName_length _ _ _ hn
    next => simp at h

/-- All matches of the pattern, scanning left to right, continuing after
each match, as `FindAllStringSubmatch(s, -1)` does.  `fuel` only bounds
the recursion: every match consumes at least two characters
(`matchAtPos_length`), so starting the fuel at the input's length never
cuts the scan short (`findMatchesAux_fuel`). -/
def findMatchesAux : Nat → List Char → List (List Char × List Char)
  | 0, _ => []
  | _ + 1, [] => []
  | fuel + 1, c :: rest =>
    match matchAtPos (c :: rest) with
    | some (g1, g2, after) => (g1, g2) :: findMatchesAux fuel after
    | none => findMatchesAux fuel rest

def findMatches (l : List Char) : List (List Char × List Char) :=
  findMatchesAux l.length l

theorem findMatchesAux_nil (fuel : Nat) : findMatchesAux fuel [] = [] := by
  cases fuel <;> rfl

theorem findMatchesAux_fuel (fuel : Nat) :
    ∀ fuel2 (l : List Char), l.length ≤ fuel → l.length ≤ fuel2 →
      findMatchesAux fuel l = findMatchesAux fuel2 l := by
  induction fuel with
  | zero =>
    intro fuel2 l h _
    have : l = [] := List.eq_nil_of_length_eq_zero (Nat.le_zero.mp h)
    rw [this, findMatchesAux_nil, findMatchesAux_nil]
  | succ fuel ih =>
    intro fuel2 l h h2
    match l with
    | [] => rw [findMatchesAux_nil, findMatchesAux_nil]
    | c :: rest =>
      match fuel2 with
      | 0 =>
        rw [List.length_cons] at h2
        omega
      | fuel2 + 1 =>
        rw [findMatchesAux, findMatchesAux]
        match hm : matchAtPos (c :: rest) with
        | some (g1, g2, after) =>
          have hlt := matchAtPos_length _ _ _ _ hm
          rw [List.length_cons] at h h2 hlt
          exact congrArg _ (ih fuel2 after (by omega) (by omega))
        | none =>
          rw [List.length_cons] at h h2
          exact ih fuel2 rest (by omega) (by omega)

/-- Models `strconv.Atoi` as the parser uses it: its argument is either
empty (the count group did not participate) or a run of digits; Atoi
fails on the empty string and on values beyond int64's range, and the
caller replaces a failure by 1. -/
def goAtoi (s : List Char) : Option Int :=
  if s.isEmpty then none
  else if s.all goIsDigit then
    if (s.foldl (fun acc c => acc * 10 + ((c.toNat : Int) - 48)) 0)
        ≤ 9223372036854775807 then
      some (s.foldl (fun acc c => acc * 10 + ((c.toNat : Int) - 48)) 0)
    else none
  else none

/-- Models `strings.TrimSpace` (`unicode.IsSpace`, Latin-1 range). -/
def goIsSpace (c : Char) : Bool :=
  decide (c.toNat = 9 ∨ c.toNat = 10 ∨ c.toNat = 11 ∨ c.toNat = 12 ∨
    c.toNat = 13 ∨ c.toNat = 32 ∨ c.toNat = 133 ∨ c.toNat = 160)

def goTrimSpace (l : List Char) : List Char :=
  ((l.dropWhile goIsSpace).reverse.dropWhile goIsSpace).reverse

/-- Models `func ParseCardEntryLine(s string) *CardEntry`
(src/database.go): run the pattern over the line; unless there is exactly
one match, return nil; otherwise Atoi the count group, defaulting to 1
when Atoi fails (in particular when the group is empty), and trim the
name.  The price fields are left at their zero values. -/
def ParseCardEntryLine (s : String) : Option CardEntry :=
  match findMatches s.data with
  | [(g1, g2)] =>
    some ⟨String.mk (goTrimSpace g2), (goAtoi g1).getD 1, Free, false⟩
  | _ => none

def parseCardEntryLinesGo : List String → List CardEntry
  | [] => []
  | line :: rest =>
    match ParseCardEntryLine line with
    | some e => e :: parseCardEntryLinesGo rest
    | none => parseCardEntryLinesGo rest

/-- Models `strings.Split(s, "\r\n")`: cut at every (non-overlapping,
leftmost-first) occurrence of CRLF.  `acc` is the piece being built. -/
def splitCRLFAux : List Char → List Char → List (List Char)
  | [], acc => [acc]
  | '\r' :: '\n' :: rest, acc => acc :: splitCRLFAux rest []
  | c :: rest, acc => splitCRLFAux rest (acc ++ [c])

def splitCRLF (l : List Char) : List (List Char) :=
  splitCRLFAux l []

/-- Models `func ParseCardEntryLines(s string) []*CardEntry`
(src/database.go): split on CRLF, parse every line, keep the hits in
order. -/
def ParseCardEntryLines (s : String) : List CardEntry :=
  parseCardEntryLinesGo ((splitCRLF s.data).map String.mk)

/-! ### Parser lemmas and the parser claims -/

theorem takeWhile_eq_self_of_all (p : Char → Bool) (l : List Char)
    (h : ∀ a ∈ l, p a = true) : l.takeWhile p = l := by
  induction l with
  | nil => rfl
  | cons a t ih =>
    rw [List.takeWhile_cons, if_pos (h a (List.mem_cons_self a t))]
    rw [ih fun b hb => h b (List.mem_cons_of_mem a hb)]

theorem dropWhile_eq_nil_of_all (p : Char → Bool) (l : List Char)
    (h : ∀ a ∈ l, p a = true) : l.dropWhile p = [] := by
  induction l with
  | nil => rfl
  | cons a t ih =>
    rw [List.dropWhile_cons, if_pos (h a (List.mem_cons_self a t))]
    exact ih fun b hb => h b (List.mem_cons_of_mem a hb)

theorem takeWhile_all_append (p : Char → Bool) (l1 l2 : List Char)
    (h : ∀ a ∈ l1, p a = true) :
    (l1 ++ l2).takeWhile p = l1 ++ l2.takeWhile p := by
  induction l1 with
  | nil => rfl
  | cons a t ih =>
    rw [List.cons_append, List.takeWhile_cons,
      if_pos (h a (List.mem_cons_self a t)), List.cons_append,
      ih fun b hb => h b (List.mem_cons_of_mem a hb)]

theorem dropWhile_all_append (p : Char → Bool) (l1 l2 : List Char)
    (h : ∀ a ∈ l1, p a = true) :
    (l1 ++ l2).dropWhile p = l2.dropWhile p := by
  induction l1 with
  | nil => rfl
  | cons a t ih =>
    rw [List.cons_append, List.dropWhile_cons,
      if_pos (h a (List.mem_cons_self a t))]
    exact ih fun b hb => h b (List.mem_cons_of_mem a hb)

theorem isWordChar_not_space (c : Char) (h : isWordChar c = true) :
    isReSpace c = false := by
  rw [isWordChar, goIsDigit, goIsUpper, goIsLower] at h
  simp only [Bool.or_eq_true, decide_eq_true_eq] at h
  rw [isReSpace, decide_eq_false_iff_not]
  omega

theorem isReSpace_not_digit (c : Char) (h : isReSpace c = true) :
    goIsDigit c = false := by
  rw [isReSpace, decide_eq_true_eq] at h
  rw [goIsDigit, decide_eq_false_iff_not]
  omega

theorem isReSpace_ne_x (c : Char) (h : isReSpace c = true) :
    (c == 'x' || c == 'X') = false := by
  rw [isReSpace, decide_eq_true_eq] at h
  rw [Bool.or_eq_false_iff, beq_eq_false_iff_ne, beq_eq_false_iff_ne]
  constructor
  · intro he
    rw [he] at h
    revert h
    decide
  · intro he
    rw [he] at h
    revert h
    decide

theorem isEmpty_false_of_ne_nil {l : List Char} (h : l ≠ []) :
    l.isEmpty = false := by
  cases l with
  | nil => exact absurd rfl h
  | cons a t => rfl

theorem matchName_all (c : Char) (rest : List Char)
    (hw : isWordChar c = true) (hr : rest ≠ [])
    (hn : ∀ a ∈ rest, (a != '\n') = true) :
    matchName (c :: rest) = some (c :: rest, []) := by
  rw [matchName, if_pos hw, takeWhile_eq_self_of_all _ _ hn,
    dropWhile_eq_nil_of_all _ _ hn, if_neg (by rw [isEmpty_false_of_ne_nil hr]; simp)]

theorem matchSpacesName_shape (sp : List Char) (c : Char) (rest : List Char)
    (hsp : sp ≠ []) (hsall : ∀ a ∈ sp, isReSpace a = true)
    (hw : isWordChar c = true) (hr : rest ≠ [])
    (hn : ∀ a ∈ rest, (a != '\n') = true) :
    matchSpacesName (sp ++ c :: rest) = some (c :: rest, []) := by
  have ht : (sp ++ c :: rest).takeWhile isReSpace = sp := by
    rw [takeWhile_all_append _ _ _ hsall, List.takeWhile_cons,
      if_neg (by rw [isWordChar_not_space c hw]; simp), List.append_nil]
  have hd : (sp ++ c :: rest).dropWhile isReSpace = c :: rest := by
    rw [dropWhile_all_append _ _ _ hsall, List.dropWhile_cons,
      if_neg (by rw [isWordChar_not_space c hw]; simp)]
  rw [matchSpacesName, ht, hd, if_neg (by rw [isEmpty_false_of_ne_nil hsp]; simp),
    matchName_all c rest hw hr hn]

theorem tryCount_no_digit (c : Char) (rest : List Char)
    (h : goIsDigit c = false) : tryCount (c :: rest) = none := by
  rw [tryCount, if_pos (by rw [List.takeWhile_cons, if_neg (by rw [h]; simp)]; rfl)]

/-- One evaluation step of `tryCount` once the digit cut is known. -/
theorem tryCount_step (l : List Char) (x : Char) (r2 : List Char)
    (hne : ¬ (l.takeWhile goIsDigit).isEmpty = true)
    (hdrop : l.dropWhile goIsDigit = x :: r2) :
    tryCount l =
      if (x == 'x' || x == 'X') = true then
        match matchSpacesName r2 with
        | some (nm2, rest2) => some (l.takeWhile goIsDigit, nm2, rest2)
        | none => tryCountNoX (l.takeWhile goIsDigit) (x :: r2)
      else tryCountNoX (l.takeWhile goIsDigit) (x :: r2) := by
  rw [tryCount, if_neg hne, hdrop]

theorem matchAtPos_of_tryCount (l g1 nm rest : List Char)
    (h : tryCount l = some (g1, nm, rest)) :
    matchAtPos l = some (g1, nm, rest) := by
  rw [matchAtPos, h]

theorem matchAtPos_of_bare (l nm rest : List Char)
    (hc : tryCount l = none) (hn2 : matchName l = some (nm, rest)) :
    matchAtPos l = some ([], nm, rest) := by
  rw [matchAtPos, hc, hn2]

theorem matchAtPos_plain (c : Char) (rest : List Char)
    (hw : isWordChar c = true) (hd : goIsDigit c = false)
    (hr : rest ≠ []) (hn : ∀ a ∈ rest, (a != '\n') = true) :
    matchAtPos (c :: rest) = some ([], c :: rest, []) :=
  matchAtPos_of_bare _ _ _ (tryCount_no_digit c rest hd)
    (matchName_all c rest hw hr hn)

theorem matchAtPos_counted (ds sp : List Char) (c : Char) (rest : List Char)
    (hds : ds ≠ []) (hdall : ∀ a ∈ ds, goIsDigit a = true)
    (hsp : sp ≠ []) (hsall : ∀ a ∈ sp, isReSpace a = true)
    (hw : isWordChar c = true) (hr : rest ≠ [])
    (hn : ∀ a ∈ rest, (a != '\n') = true) :
    matchAtPos (ds ++ sp ++ c :: rest) = some (ds, c :: rest, []) := by
  match sp, hsp with
  | s0 :: sp2, _ =>
    have hs0 : isReSpace s0 = true := hsall s0 (List.mem_cons_self s0 sp2)
    have ht : (ds ++ (s0 :: sp2) ++ c :: rest).takeWhile goIsDigit = ds := by
      rw [List.append_assoc, takeWhile_all_append _ _ _ hdall,
        List.cons_append, List.takeWhile_cons,
        if_neg (by rw [isReSpace_not_digit s0 hs0]; simp), List.append_nil]
    have hdp : (ds ++ (s0 :: sp2) ++ c :: rest).dropWhile goIsDigit
        = s0 :: (sp2 ++ c :: rest) := by
      rw [List.append_assoc, dropWhile_all_append _ _ _ hdall,
        List.cons_append, List.dropWhile_cons,
        if_neg (by rw [isReSpace_not_digit s0 hs0]; simp)]
    have hm : matchSpacesName ((s0 :: sp2) ++ c :: rest) = some (c :: rest, []) :=
      matchSpacesName_shape (s0 :: sp2) c rest (by simp) hsall hw hr hn
    have hstep := tryCount_step (ds ++ (s0 :: sp2) ++ c :: rest) s0
      (sp2 ++ c :: rest)
      (by rw [ht, isEmpty_false_of_ne_nil hds]; simp) hdp
    rw [ht, if_neg (by rw [isReSpace_ne_x s0 hs0]; simp)] at hstep
    have hnox : tryCountNoX ds (s0 :: (sp2 ++ c :: rest))
        = some (ds, c :: rest, []) := by
      rw [List.cons_append] at hm
      rw [tryCountNoX, hm]
    exact matchAtPos_of_tryCount _ _ _ _ (hstep.trans hnox)

theorem matchAtPos_counted_x (ds : List Char) (x : Char) (sp : List Char)
    (c : Char) (rest : List Char)
    (hds : ds ≠ []) (hdall : ∀ a ∈ ds, goIsDigit a = true)
    (hx : x = 'x' ∨ x = 'X')
    (hsp : sp ≠ []) (hsall : ∀ a ∈ sp, isReSpace a = true)
    (hw : isWordChar c = true) (hr : rest ≠ [])
    (hn : ∀ a ∈ rest, (a != '\n') = true) :
    matchAtPos (ds ++ x :: sp ++ c :: rest) = some (ds, c :: rest, []) := by
  have hxd : goIsDigit x = false := by
    rcases hx with he | he <;> rw [he] <;> decide
  have ht : (ds ++ x :: sp ++ c :: rest).takeWhile goIsDigit = ds := by
    rw [List.append_assoc, takeWhile_all_append _ _ _ hdall,
      List.cons_append, List.takeWhile_cons, if_neg (by rw [hxd]; simp),
      List.append_nil]
  have hdp : (ds ++ x :: sp ++ c :: rest).dropWhile goIsDigit
      = x :: (sp ++ c :: rest) := by
    rw [List.append_assoc, dropWhile_all_append _ _ _ hdall,
      List.cons_append, List.dropWhile_cons, if_neg (by rw [hxd]; simp)]
  have hxeq : (x == 'x' || x == 'X') = true := by
    rcases hx with he | he <;> rw [he] <;> decide
  have hstep := tryCount_step (ds ++ x :: sp ++ c :: rest) x (sp ++ c :: rest)
    (by rw [ht, isEmpty_false_of_ne_nil hds]; simp) hdp
  rw [ht, if_pos hxeq, matchSpacesName_shape sp c rest hsp hsall hw hr hn]
    at hstep
  exact matchAtPos_of_tryCount _ _ _ _ (hstep.trans rfl)

theorem findMatches_single (c : Char) (rest g1 nm : List Char)
    (hm : matchAtPos (c :: rest) = some (g1, nm, [])) :
    findMatches (c :: rest) = [(g1, nm)] := by
  rw [findMatches, List.length_cons, findMatchesAux, hm]
  show (g1, nm) :: findMatchesAux rest.length [] = [(g1, nm)]
  rw [findMatchesAux_nil]

theorem ParseCardEntryLine_single (s : String) (g1 nm : List Char)
    (h : findMatches s.data = [(g1, nm)]) :
    ParseCardEntryLine s
      = some ⟨String.mk (goTrimSpace nm), (goAtoi g1).getD 1, Free, false⟩ := by
  rw [ParseCardEntryLine, h]

theorem goAtoi_foldl_nonneg (l : List Char) :
    ∀ acc : Int, 0 ≤ acc →
      0 ≤ l.foldl (fun acc c => acc * 10 + ((c.toNat : Int) - 48)) acc ∨
      ¬ l.all goIsDigit = true := by
  induction l with
  | nil => intro acc h; exact Or.inl h
  | cons a t ih =>
    intro acc h
    by_cases hd : goIsDigit a = true
    · rw [List.foldl_cons]
      have ha : 48 ≤ (a.toNat : Int) := by
        rw [goIsDigit, decide_eq_true_eq] at hd
        exact_mod_cast hd.1
      rcases ih (acc * 10 + ((a.toNat : Int) - 48)) (by omega) with hgood | hbad
      · exact Or.inl hgood
      · right
        rw [List.all_cons, hd, Bool.true_and]
        exact hbad
    · right
      rw [List.all_cons]
      intro hc
      rw [Bool.and_eq_true] at hc
      exact hd hc.1

theorem goAtoi_nonneg (l : List Char) (v : Int) (h : goAtoi l = some v) :
    0 ≤ v := by
  rw [goAtoi] at h
  split at h
  · simp at h
  · split at h
    next hall =>
      split at h
      · rw [Option.some.injEq] at h
        rcases goAtoi_foldl_nonneg l 0 le_rfl with hg | hb
        · exact h ▸ hg
        · exact absurd hall hb
      · simp at h
    next => simp at h

theorem goAtoi_getD_nonneg (l : List Char) : 0 ≤ (goAtoi l).getD 1 := by
  match hg : goAtoi l with
  | some v =>
    rw [Option.getD_some]
    exact goAtoi_nonneg _ _ hg
  | none =>
    rw [Option.getD_none]
    omega

/-- C6 (amended): every entry the parser emits has a non-negative count;
the count-at-least-one invariant fails only for an explicit zero count
(see the counterexample). -/
theorem c6_count_nonneg :
    (∀ s e, ParseCardEntryLine s = some e → 0 ≤ e.Count) ∧
    (∀ s : String, ∀ e ∈ ParseCardEntryLines s, 0 ≤ e.Count) := by
  have h1 : ∀ s e, ParseCardEntryLine s = some e → 0 ≤ e.Count := by
    intro s e h
    rw [ParseCardEntryLine] at h
    split at h
    next ga gb =>
      rw [Option.some.injEq] at h
      rw [← h]
      exact goAtoi_getD_nonneg _
    next => simp at h
  have h2 : ∀ lines, ∀ e ∈ parseCardEntryLinesGo lines, 0 ≤ e.Count := by
    intro lines
    induction lines with
    | nil =>
      intro e he
      simp [parseCardEntryLinesGo] at he
    | cons line rest ih =>
      intro e he
      rw [parseCardEntryLinesGo] at he
      split at he
      next e2 hp =>
        rw [List.mem_cons] at he
        rcases he with he | he
        · rw [he]
          exact h1 line e2 hp
        · exact ih e he
      next => exact ih e he
  exact ⟨h1, fun s e he => h2 _ e he⟩

/-- C6 counterexample: the line "0 Lightning Bolt" is emitted with
count 0, so the parser does emit a zero count, refuting count ≥ 1. -/
theorem c6_counterexample :
    ParseCardEntryLine "0 Lightning Bolt"
      = some ⟨"Lightning Bolt", 0, Free, false⟩ := by
  decide

/-- C7 counterexample: "X" is a non-empty line whose trimmed text is a
non-whitespace name token, yet the parser yields no entry (the name group
`(\w.+)` needs at least two characters), refuting the claim that every
such line parses to an entry. -/
theorem c7_counterexample : ParseCardEntryLine "X" = none := by
  decide

/-- C7 (amended): a line that is a name of at least two characters
starting with a word character (no newline inside) parses with count 1;
a line of digits, then blanks, then such a name parses with the Atoi of
the digits (1 when Atoi fails); the spec's three examples hold; and
parseLines splits on CRLF, preserves order and drops non-matching lines
(example: the blank line and the one-character line are dropped). -/
theorem c7_parser_amended :
    (∀ c rest, isWordChar c = true → goIsDigit c = false → rest ≠ [] →
      (∀ a ∈ rest, (a != '\n') = true) →
      ParseCardEntryLine (String.mk (c :: rest)) =
        some ⟨String.mk (goTrimSpace (c :: rest)), 1, Free, false⟩) ∧
    (∀ ds sp c rest, ds ≠ [] → (∀ a ∈ ds, goIsDigit a = true) →
      sp ≠ [] → (∀ a ∈ sp, isReSpace a = true) →
      isWordChar c = true → rest ≠ [] →
      (∀ a ∈ rest, (a != '\n') = true) →
      ParseCardEntryLine (String.mk (ds ++ sp ++ c :: rest)) =
        some ⟨String.mk (goTrimSpace (c :: rest)), (goAtoi ds).getD 1,
          Free, false⟩) ∧
    ParseCardEntryLine "4 Lightning Bolt"
      = some ⟨"Lightning Bolt", 4, Free, false⟩ ∧
    ParseCardEntryLine "Lightning Bolt"
      = some ⟨"Lightning Bolt", 1, Free, false⟩ ∧
    ParseCardEntryLine "" = none ∧
    ParseCardEntryLines "4 Bolt\r\n\r\nIsland\r\nX"
      = [⟨"Bolt", 4, Free, false⟩, ⟨"Island", 1, Free, false⟩] := by
  refine ⟨fun c rest hw hd hr hn => ?_, fun ds sp c rest hds hdall hsp hsall hw hr hn => ?_,
    by decide, by decide, by decide, by decide⟩
  · rw [ParseCardEntryLine_single _ [] (c :: rest)
      (findMatches_single c rest [] (c :: rest) (matchAtPos_plain c rest hw hd hr hn))]
    rfl
  · have hne : ds ++ sp ++ c :: rest ≠ [] := by
      match ds, hds with
      | d0 :: ds2, _ => simp
    match hds2 : ds ++ sp ++ c :: rest, hne with
    | a0 :: t0, _ =>
      have hmm : matchAtPos (a0 :: t0) = some (ds, c :: rest, []) := by
        rw [← hds2]
        exact matchAtPos_counted ds sp c rest hds hdall hsp hsall hw hr hn
      exact ParseCardEntryLine_single (String.mk (a0 :: t0)) ds (c :: rest)
        (findMatches_single a0 t0 ds (c :: rest) hmm)

/-- C10: the parser accepts an optional literal x or X between the count
digits and the blanks; in general and on the two concrete forms. -/
theorem c10_count_x_suffix :
    (∀ ds x sp c rest, ds ≠ [] → (∀ a ∈ ds, goIsDigit a = true) →
      (x = 'x' ∨ x = 'X') → sp ≠ [] → (∀ a ∈ sp, isReSpace a = true) →
      isWordChar c = true → rest ≠ [] →
      (∀ a ∈ rest, (a != '\n') = true) →
      ParseCardEntryLine (String.mk (ds ++ x :: sp ++ c :: rest)) =
        some ⟨String.mk (goTrimSpace (c :: rest)), (goAtoi ds).getD 1,
          Free, false⟩) ∧
    ParseCardEntryLine "4x Lightning Bolt"
      = some ⟨"Lightning Bolt", 4, Free, false⟩ ∧
    ParseCardEntryLine "4X Lightning Bolt"
      = some ⟨"Lightning Bolt", 4, Free, false⟩ := by
  refine ⟨fun ds x sp c rest hds hdall hx hsp hsall hw hr hn => ?_,
    by decide, by decide⟩
  have hne : ds ++ x :: sp ++ c :: rest ≠ [] := by
    match ds, hds with
    | d0 :: ds2, _ => simp
  match hds2 : ds ++ x :: sp ++ c :: rest, hne with
  | a0 :: t0, _ =>
    have hmm : matchAtPos (a0 :: t0) = some (ds, c :: rest, []) := by
      rw [← hds2]
      exact matchAtPos_counted_x ds x sp c rest hds hdall hx hsp hsall hw hr hn
    exact ParseCardEntryLine_single (String.mk (a0 :: t0)) ds (c :: rest)
      (findMatches_single a0 t0 ds (c :: rest) hmm)

/-! ### The price scraper (claims C4, C5)

The scrape run (src/prices.go) is modelled against its environment: the
index-page fetch is an `Except` value, and each set-listing page fetch is
an `Except` holding the page's table cells.  HTML cells carry the three
things `scrapePage` reads: the `bgcolor` attribute, the nested anchor's
`href`, and the cell text.  The Mongo stores are modelled as plain state
(`DbState`): `UpdateAllPrices` is the full catalog replacement and
`SetScraperStats` the full stats replacement, per the store's
atomic-bulk-replace contract (spec section 5). -/

/-- Models `type PriceDbEntry struct` (src/database.go). -/
structure PriceDbEntry where
  ID : String
  Name : String
  Price : Money
deriving DecidableEq

/-- Models `type ScraperStats struct` (src/database.go): last update time
(abstract timestamp) and the last error (an optional message). -/
structure ScraperStats where
  LastPriceUpdate : Nat
  LastPriceUpdateError : Option String
deriving DecidableEq

/-- The two persisted stores the scraper touches. -/
structure DbState where
  Prices : List PriceDbEntry
  Stats : ScraperStats
deriving DecidableEq

/-- One step of the `lowestPrice` merge in `func (db *Db) scrapePrices`
(src/prices.go): look the entry's ID up; keep the new entry if the ID is
new or its price is strictly lower.  The Go map is modelled as an
association list keyed by ID (Go map iteration order is unspecified; the
entry set is what the claims are about). -/
def insertLowest : List PriceDbEntry → PriceDbEntry → List PriceDbEntry
  | [], e => [e]
  | x :: xs, e =>
    if x.ID == e.ID then
      if e.Price < x.Price then e :: xs else x :: xs
    else x :: insertLowest xs e

/-- The whole reconciliation of a run: fold `insertLowest` over the
scraped entries in order, starting from the empty map. -/
def reconcileEntries (l : List PriceDbEntry) : List PriceDbEntry :=
  l.foldl insertLowest []

/-- A `<td>` cell as `scrapePage` reads it. -/
structure Cell where
  bgcolor : Option String
  aHref : Option String
  text : String
deriving DecidableEq

/-- Models `strings.Index` (first occurrence of `sub`, or none). -/
def substrIndex : List Char → List Char → Option Nat
  | s, sub =>
    match s with
    | [] => if sub.isEmpty then some 0 else none
    | c :: rest =>
      if sub.isPrefixOf (c :: rest) then some 0
      else (substrIndex rest sub).map (fun n => n + 1)

def digitsToNat (l : List Char) : Nat :=
  l.foldl (fun acc c => acc * 10 + (c.toNat - 48)) 0

/-- Models `strconv.ParseFloat` on the plain decimal forms the price
cells carry (`[-+]?digits[.digits]`); exponent, hex and inf/nan forms are
not modelled.  The numeric value is exact. -/
def goParseFloatCore (l : List Char) : Option Money :=
  if l.isEmpty then none
  else
    match l.dropWhile goIsDigit with
    | [] => some ((digitsToNat l : Nat) : Money)
    | '.' :: frac =>
      if frac.isEmpty ∧ (l.takeWhile goIsDigit).isEmpty then none
      else if frac.all goIsDigit then
        some ((digitsToNat (l.takeWhile goIsDigit) : Money)
          + (digitsToNat frac : Money) / ((10 : Money) ^ frac.length))
      else none
    | _ => none

def goParseFloat (l : List Char) : Option Money :=
  match l with
  | '-' :: r => (goParseFloatCore r).map fun q => -q
  | '+' :: r => goParseFloatCore r
  | _ => goParseFloatCore l

/-- Models `strings.Trim(s, "$")`: strip `$` from both ends. -/
def goTrimDollar (l : List Char) : List Char :=
  ((l.dropWhile fun c => c == '$').reverse.dropWhile fun c => c == '$').reverse

/-- The price-text pipeline of `scrapePage` (src/prices.go): TrimSpace,
Trim "$", drop the thousands separators, ParseFloat. -/
def parsePriceText (t : String) : Option Money :=
  goParseFloat ((goTrimDollar (goTrimSpace t.data)).filter fun c => c != ',')

/-- What one cell contributes: skipped, a catalog entry, or — on a price
text ParseFloat rejects — the `panic(err)` of src/prices.go. -/
inductive CellOutcome where
  | panic
  | skip
  | entry (e : PriceDbEntry)
deriving DecidableEq

/-- Models the body of the `doc.Find("td").Each` closure in `scrapePage`:
the cell must carry one of the two sale-row bgcolors, a nested href with a
`cn=` parameter terminated by `&`; then the card name is that parameter
and the price is parsed from the cell text, panicking when it does not
parse. -/
def processCell (c : Cell) : CellOutcome :=
  match c.bgcolor with
  | none => .skip
  | some bg =>
    if bg == "#D1DFFC" || bg == "#E6F4FF" then
      match c.aHref with
      | none => .skip
      | some href =>
        match substrIndex href.data ("cn=".data) with
        | none => .skip
        | some idx =>
          match substrIndex (href.data.drop (idx + 3)) ("&".data) with
          | none => .skip
          | some j =>
            match parsePriceText c.text with
            | none => .panic
            | some p =>
              .entry ⟨nameToId (String.mk ((href.data.drop (idx + 3)).take j)),
                String.mk ((href.data.drop (idx + 3)).take j), p⟩
    else .skip

/-- The cell loop of `scrapePage`, appending entries in order; `none`
models the panic escaping the loop. -/
def collectCells : List Cell → List PriceDbEntry → Option (List PriceDbEntry)
  | [], acc => some acc
  | c :: rest, acc =>
    match processCell c with
    | .panic => none
    | .skip => collectCells rest acc
    | .entry e => collectCells rest (acc ++ [e])

inductive PageScrape where
  | fetchErr (e : String)
  | panicked
  | ok (entries : List PriceDbEntry)
deriving DecidableEq

/-- Models `func scrapePage(url string)` (src/prices.go) against a fetch
outcome: a fetch error is returned to the caller; a malformed price text
panics; otherwise the page's entries are produced in order.  (The
rate-limit sleep and the url blank fix-up have no state effect.) -/
def scrapePage : Except String (List Cell) → PageScrape
  | .error e => .fetchErr e
  | .ok cells =>
    match collectCells cells [] with
    | none => .panicked
    | some es => .ok es

inductive RunResult where
  | panicked
  | failed (e : String)
  | ok (entries : List PriceDbEntry)
deriving DecidableEq

/-- The per-set-link loop of `scrapePrices`: pages are scraped in order;
the first fetch error aborts the run with that error, a panic propagates,
and each page's entries are merged into the `lowestPrice` map. -/
def scrapePagesLoop :
    List (Except String (List Cell)) → List PriceDbEntry → RunResult
  | [], acc => .ok acc
  | p :: ps, acc =>
    match scrapePage p with
    | .fetchErr e => .failed e
    | .panicked => .panicked
    | .ok es => scrapePagesLoop ps (es.foldl insertLowest acc)

/-- Models `func (db *Db) scrapePrices` (src/prices.go): an index-fetch
error aborts the run; otherwise every set page is scraped and reconciled.
The set links extracted from the index (with the M10 suffix fix-up) only
decide which pages are fetched, so the environment supplies the ordered
page outcomes directly. -/
def scrapePrices (indexFetch : Except String Unit)
    (pages : List (Except String (List Cell))) : RunResult :=
  match indexFetch with
  | .error e => .failed e
  | .ok _ => scrapePagesLoop pages []

/-- Models `func (db *Db) scrapePricesPeriodic` (src/prices.go) as a state
transition: on success the catalog is wholly replaced (`UpdateAllPrices`)
and the stats record is wholly replaced with (now, no error); on a
returned error the catalog is untouched and the stats record is wholly
replaced with (now, the error); a panic (malformed price text) escapes
`scrapePricesPeriodic` — no store is touched and the process dies, which
`none` models. -/
def scrapePricesPeriodic (st : DbState) (now : Nat)
    (indexFetch : Except String Unit)
    (pages : List (Except String (List Cell))) : Option DbState :=
  match scrapePrices indexFetch pages with
  | .ok es => some ⟨es, ⟨now, none⟩⟩
  | .failed e => some ⟨st.Prices, ⟨now, some e⟩⟩
  | .panicked => none

/-- The entries a page contributes when it scrapes cleanly. -/
def pageEntries (p : Except String (List Cell)) : List PriceDbEntry :=
  match scrapePage p with
  | .ok es => es
  | _ => []

/-! ### Reconciliation properties (claim C5) -/

/-- Lookup by ID in the association list modelling the `lowestPrice`
map. -/
def findEntry : List PriceDbEntry → String → Option PriceDbEntry
  | [], _ => none
  | x :: xs, id => if x.ID == id then some x else findEntry xs id

/-- The best entry for one ID after seeing one more scraped entry. -/
def bestStep (id : String) (acc : Option PriceDbEntry) (e : PriceDbEntry) :
    Option PriceDbEntry :=
  if e.ID == id then
    match acc with
    | none => some e
    | some x => if e.Price < x.Price then some e else some x
  else acc

/-- The best entry for one ID over a run of scraped entries. -/
def bestFrom (id : String) (acc : Option PriceDbEntry)
    (l : List PriceDbEntry) : Option PriceDbEntry :=
  l.foldl (bestStep id) acc

theorem bestStep_of_id (id : String) (acc : Option PriceDbEntry)
    (e : PriceDbEntry) (heid : (e.ID == id) = true) :
    bestStep id acc e = match acc with
      | none => some e
      | some x => if e.Price < x.Price then some e else some x := by
  rw [bestStep.eq_def, if_pos heid]

theorem bestStep_not_id (id : String) (acc : Option PriceDbEntry)
    (e : PriceDbEntry) (heid : ¬ (e.ID == id) = true) :
    bestStep id acc e = acc := by
  rw [bestStep.eq_def, if_neg heid]

theorem findEntry_insertLowest (m : List PriceDbEntry) (e : PriceDbEntry)
    (id : String) :
    findEntry (insertLowest m e) id = bestStep id (findEntry m id) e := by
  induction m with
  | nil =>
    show findEntry [e] id = bestStep id none e
    by_cases he : (e.ID == id) = true
    · rw [findEntry, if_pos he, bestStep_of_id _ _ _ he]
    · rw [findEntry, if_neg he, bestStep_not_id _ _ _ he]
      rfl
  | cons x xs ih =>
    rw [insertLowest]
    by_cases hxe : (x.ID == e.ID) = true
    · have hxe' : x.ID = e.ID := eq_of_beq hxe
      rw [if_pos hxe]
      by_cases hxid : (x.ID == id) = true
      · have heid : (e.ID == id) = true := by rw [← hxe']; exact hxid
        by_cases hp : e.Price < x.Price
        · rw [if_pos hp, findEntry, if_pos heid, findEntry, if_pos hxid,
            bestStep_of_id _ _ _ heid]
          show some e = if e.Price < x.Price then some e else some x
          rw [if_pos hp]
        · rw [if_neg hp, findEntry, if_pos hxid,
            bestStep_of_id _ _ _ heid]
          show some x = if e.Price < x.Price then some e else some x
          rw [if_neg hp]
      · have heid : ¬ (e.ID == id) = true := by rw [← hxe']; exact hxid
        by_cases hp : e.Price < x.Price
        · rw [if_pos hp, findEntry, if_neg heid, findEntry, if_neg hxid,
            bestStep_not_id _ _ _ heid]
        · rw [if_neg hp, findEntry, if_neg hxid, bestStep_not_id _ _ _ heid]
    · rw [if_neg hxe]
      by_cases hxid : (x.ID == id) = true
      · have heid : ¬ (e.ID == id) = true := by
          intro hb
          apply hxe
          rw [eq_of_beq hxid, eq_of_beq hb]
          exact beq_self_eq_true id
        rw [findEntry, if_pos hxid, findEntry, if_pos hxid,
          bestStep_not_id _ _ _ heid]
      · rw [findEntry, if_neg hxid, findEntry, if_neg hxid, ih]

theorem findEntry_foldl (l : List PriceDbEntry) :
    ∀ (m : List PriceDbEntry) (id : String),
      findEntry (l.foldl insertLowest m) id
        = bestFrom id (findEntry m id) l := by
  induction l with
  | nil => intro m id; rfl
  | cons e l ih =>
    intro m id
    rw [List.foldl_cons, ih (insertLowest m e) id, findEntry_insertLowest]
    rfl

theorem bestFrom_mem (id : String) (l : List PriceDbEntry) :
    ∀ acc b, bestFrom id acc l = some b →
      acc = some b ∨ (b ∈ l ∧ b.ID = id) := by
  induction l with
  | nil => intro acc b h; exact Or.inl h
  | cons e l ih =>
    intro acc b h
    rw [bestFrom, List.foldl_cons] at h
    rcases ih (bestStep id acc e) b h with h1 | h1
    · by_cases heid : (e.ID == id) = true
      · rcases acc with _ | x
        · have h2 : some e = some b := ((bestStep_of_id id none e heid).symm).trans h1
          rw [Option.some.injEq] at h2
          right
          rw [← h2]
          exact ⟨List.mem_cons_self e l, eq_of_beq heid⟩
        · have h2 : (if e.Price < x.Price then some e else some x) = some b :=
            ((bestStep_of_id id (some x) e heid).symm).trans h1
          by_cases hp : e.Price < x.Price
          · rw [if_pos hp, Option.some.injEq] at h2
            right
            rw [← h2]
            exact ⟨List.mem_cons_self e l, eq_of_beq heid⟩
          · rw [if_neg hp] at h2
            exact Or.inl h2
      · rw [bestStep_not_id id acc e heid] at h1
        exact Or.inl h1
    · exact Or.inr ⟨List.mem_cons_of_mem e h1.1, h1.2⟩

theorem bestFrom_min (id : String) (l : List PriceDbEntry) :
    ∀ acc b, bestFrom id acc l = some b →
      (∀ e ∈ l, e.ID = id → b.Price ≤ e.Price) ∧
      (∀ x, acc = some x → b.Price ≤ x.Price) := by
  induction l with
  | nil =>
    intro acc b h
    have h2 : acc = some b := h
    refine ⟨fun e he => absurd he (List.not_mem_nil e), fun x hx => ?_⟩
    rw [hx, Option.some.injEq] at h2
    rw [← h2]
  | cons e l ih =>
    intro acc b h
    rw [bestFrom, List.foldl_cons] at h
    obtain ⟨hmin, hacc⟩ := ih (bestStep id acc e) b h
    constructor
    · intro e2 he2 hid2
      rcases List.mem_cons.mp he2 with he2 | he2
      · subst he2
        have heid : (e2.ID == id) = true := beq_iff_eq.mpr hid2
        rcases acc with _ | x
        · exact hacc e2 ((bestStep_of_id id none e2 heid).trans rfl)
        · by_cases hp : e2.Price < x.Price
          · exact hacc e2 ((bestStep_of_id id (some x) e2 heid).trans (if_pos hp))
          · have hb := hacc x ((bestStep_of_id id (some x) e2 heid).trans (if_neg hp))
            exact le_trans hb (le_of_not_lt hp)
      · exact hmin e2 he2 hid2
    · intro x hx
      subst hx
      by_cases heid : (e.ID == id) = true
      · by_cases hp : e.Price < x.Price
        · have hbe := hacc e ((bestStep_of_id id (some x) e heid).trans (if_pos hp))
          exact le_trans hbe (le_of_lt hp)
        · exact hacc x ((bestStep_of_id id (some x) e heid).trans (if_neg hp))
      · exact hacc x (bestStep_not_id id (some x) e heid)

theorem bestFrom_none (id : String) (l : List PriceDbEntry) :
    ∀ acc, bestFrom id acc l = none →
      acc = none ∧ ∀ e ∈ l, ¬ e.ID = id := by
  induction l with
  | nil =>
    intro acc h
    exact ⟨h, fun e he => absurd he (List.not_mem_nil e)⟩
  | cons e l ih =>
    intro acc h
    rw [bestFrom, List.foldl_cons] at h
    obtain ⟨hstep, hrest⟩ := ih (bestStep id acc e) h
    by_cases heid : (e.ID == id) = true
    · exfalso
      rcases acc with _ | x
      · have h2 : some e = none := ((bestStep_of_id id none e heid).symm).trans hstep
        exact Option.noConfusion h2
      · have h2 : (if e.Price < x.Price then some e else some x) = none :=
          ((bestStep_of_id id (some x) e heid).symm).trans hstep
        by_cases hp : e.Price < x.Price
        · rw [if_pos hp] at h2
          exact Option.noConfusion h2
        · rw [if_neg hp] at h2
          exact Option.noConfusion h2
    · rw [bestStep_not_id id acc e heid] at hstep
      refine ⟨hstep, fun e2 he2 => ?_⟩
      rcases List.mem_cons.mp he2 with he2 | he2
      · subst he2
        intro hid
        exact heid (beq_iff_eq.mpr hid)
      · exact hrest e2 he2

theorem findEntry_mem (r : List PriceDbEntry) (id : String) (e : PriceDbEntry)
    (h : findEntry r id = some e) : e ∈ r ∧ e.ID = id := by
  induction r with
  | nil => simp [findEntry] at h
  | cons x xs ih =>
    rw [findEntry] at h
    split at h
    next hb =>
      rw [Option.some.injEq] at h
      rw [← h]
      exact ⟨List.mem_cons_self x xs, eq_of_beq hb⟩
    next =>
      obtain ⟨h1, h2⟩ := ih h
      exact ⟨List.mem_cons_of_mem x h1, h2⟩

theorem insertLowest_keys (m : List PriceDbEntry) (e : PriceDbEntry) :
    (insertLowest m e).map (fun x => x.ID) = m.map (fun x => x.ID) ∨
    ((insertLowest m e).map (fun x => x.ID)
        = m.map (fun x => x.ID) ++ [e.ID] ∧
      ¬ e.ID ∈ m.map (fun x => x.ID)) := by
  induction m with
  | nil => exact Or.inr ⟨rfl, List.not_mem_nil _⟩
  | cons x xs ih =>
    rw [insertLowest]
    by_cases hxe : (x.ID == e.ID) = true
    · rw [if_pos hxe]
      left
      by_cases hp : e.Price < x.Price
      · rw [if_pos hp, List.map_cons, List.map_cons, eq_of_beq hxe]
      · rw [if_neg hp]
    · rw [if_neg hxe]
      rcases ih with h | ⟨h1, h2⟩
      · left
        rw [List.map_cons, List.map_cons, h]
      · right
        constructor
        · rw [List.map_cons, h1, List.map_cons, List.cons_append]
        · rw [List.map_cons, List.mem_cons]
          rintro (he | he)
          · exact hxe (beq_iff_eq.mpr he.symm)
          · exact h2 he

theorem reconcile_keys_nodup (l : List PriceDbEntry) :
    ∀ m, (m.map fun x => x.ID).Nodup →
      ((l.foldl insertLowest m).map fun x => x.ID).Nodup := by
  induction l with
  | nil => intro m h; exact h
  | cons e l ih =>
    intro m h
    rw [List.foldl_cons]
    apply ih
    rcases insertLowest_keys m e with hk | ⟨hk, hnm⟩
    · rw [hk]
      exact h
    · rw [hk, ← List.concat_eq_append]
      exact List.Nodup.concat hnm h

theorem findEntry_of_mem (r : List PriceDbEntry) (e : PriceDbEntry)
    (hnd : (r.map fun x => x.ID).Nodup) (he : e ∈ r) :
    findEntry r e.ID = some e := by
  induction r with
  | nil => exact absurd he (List.not_mem_nil e)
  | cons x xs ih =>
    rw [List.map_cons, List.nodup_cons] at hnd
    rcases List.mem_cons.mp he with he | he
    · subst he
      rw [findEntry, if_pos (beq_self_eq_true e.ID)]
    · have hne : ¬ (x.ID == e.ID) = true := by
        intro hb
        apply hnd.1
        rw [eq_of_beq hb]
        exact List.mem_map.mpr ⟨e, he, rfl⟩
      rw [findEntry, if_neg hne]
      exact ih hnd.2 he

/-- C5: reconciling the scraped (name, price) observations of a run
produces exactly one catalog entry per normalized ID (the ID list of the
result has no duplicates and covers exactly the observed IDs); each
entry's price is the minimum observed for its ID, and its display name
comes from an observation that attained that price.  The spec's concrete
example evaluates as stated. -/
theorem c5_reconcile_min :
    (∀ obs : List (String × Money),
      ((reconcileEntries (obs.map fun o => ⟨nameToId o.1, o.1, o.2⟩)).map
        (fun x => x.ID)).Nodup ∧
      (∀ o ∈ obs,
        ∃ e ∈ reconcileEntries (obs.map fun o => ⟨nameToId o.1, o.1, o.2⟩),
          e.ID = nameToId o.1) ∧
      (∀ e ∈ reconcileEntries (obs.map fun o => ⟨nameToId o.1, o.1, o.2⟩),
        (∃ o ∈ obs, nameToId o.1 = e.ID ∧ o.1 = e.Name ∧ o.2 = e.Price) ∧
        (∀ o ∈ obs, nameToId o.1 = e.ID → e.Price ≤ o.2))) ∧
    reconcileEntries ([("a", (5 : Money)), ("a", 3), ("b", 7)].map
      fun o => ⟨nameToId o.1, o.1, o.2⟩)
      = [⟨"a", "a", 3⟩, ⟨"b", "b", 7⟩] := by
  refine ⟨fun obs => ?_, by decide⟩
  have hnd : ((reconcileEntries (obs.map fun o => ⟨nameToId o.1, o.1, o.2⟩)).map
      fun x => x.ID).Nodup :=
    reconcile_keys_nodup _ [] List.nodup_nil
  refine ⟨hnd, fun o ho => ?_, fun e he => ?_⟩
  · have hm : (⟨nameToId o.1, o.1, o.2⟩ : PriceDbEntry)
        ∈ obs.map fun o => (⟨nameToId o.1, o.1, o.2⟩ : PriceDbEntry) :=
      List.mem_map.mpr ⟨o, ho, rfl⟩
    match hf : findEntry (reconcileEntries
        (obs.map fun o => ⟨nameToId o.1, o.1, o.2⟩)) (nameToId o.1) with
    | some e2 =>
      obtain ⟨h1, h2⟩ := findEntry_mem _ _ _ hf
      exact ⟨e2, h1, h2⟩
    | none =>
      exfalso
      have hfoldl : findEntry (reconcileEntries
          (obs.map fun o => ⟨nameToId o.1, o.1, o.2⟩)) (nameToId o.1)
          = bestFrom (nameToId o.1) none
            (obs.map fun o => ⟨nameToId o.1, o.1, o.2⟩) :=
        findEntry_foldl _ [] _
      rw [hf] at hfoldl
      obtain ⟨_, hall⟩ := bestFrom_none _ _ _ hfoldl.symm
      exact hall _ hm rfl
  · have hf : findEntry (reconcileEntries
        (obs.map fun o => ⟨nameToId o.1, o.1, o.2⟩)) e.ID = some e :=
      findEntry_of_mem _ _ hnd he
    have hbf : bestFrom e.ID none
        (obs.map fun o => ⟨nameToId o.1, o.1, o.2⟩) = some e := by
      have hfoldl : findEntry (reconcileEntries
          (obs.map fun o => ⟨nameToId o.1, o.1, o.2⟩)) e.ID
          = bestFrom e.ID none
            (obs.map fun o => ⟨nameToId o.1, o.1, o.2⟩) :=
        findEntry_foldl _ [] _
      rw [hf] at hfoldl
      exact hfoldl.symm
    constructor
    · rcases bestFrom_mem _ _ _ _ hbf with h1 | ⟨h1, _⟩
      · exact absurd h1 (by simp)
      · obtain ⟨o, ho, hoe⟩ := List.mem_map.mp h1
        refine ⟨o, ho, ?_⟩
        rw [← hoe]
        exact ⟨rfl, rfl, rfl⟩
    · intro o ho hid
      obtain ⟨hmin, _⟩ := bestFrom_min _ _ _ _ hbf
      exact hmin ⟨nameToId o.1, o.1, o.2⟩ (List.mem_map.mpr ⟨o, ho, rfl⟩) hid

/-! ### Scrape-run state effects (claim C4) -/

theorem scrapePagesLoop_ok (pages : List (Except String (List Cell))) :
    ∀ acc, (∀ p ∈ pages, ∃ es, scrapePage p = .ok es) →
      scrapePagesLoop pages acc
        = .ok ((pages.flatMap pageEntries).foldl insertLowest acc) := by
  induction pages with
  | nil => intro acc _; rfl
  | cons p ps ih =>
    intro acc h
    obtain ⟨es, hes⟩ := h p (List.mem_cons_self p ps)
    rw [scrapePagesLoop, hes]
    show scrapePagesLoop ps (es.foldl insertLowest acc) = _
    rw [ih _ (fun q hq => h q (List.mem_cons_of_mem p hq))]
    have hpe : pageEntries p = es := by rw [pageEntries, hes]
    rw [List.flatMap_cons, hpe, List.foldl_append]

theorem scrapePagesLoop_fail (good : List (Except String (List Cell))) :
    ∀ acc (p : Except String (List Cell)) rest e,
      (∀ q ∈ good, ∃ es, scrapePage q = .ok es) →
      scrapePage p = .fetchErr e →
      scrapePagesLoop (good ++ p :: rest) acc = .failed e := by
  induction good with
  | nil =>
    intro acc p rest e _ hp
    rw [List.nil_append, scrapePagesLoop, hp]
  | cons q good ih =>
    intro acc p rest e h hp
    obtain ⟨es, hes⟩ := h q (List.mem_cons_self q good)
    rw [List.cons_append, scrapePagesLoop, hes]
    show scrapePagesLoop (good ++ p :: rest) (es.foldl insertLowest acc) = _
    exact ih _ p rest e (fun r hr => h r (List.mem_cons_of_mem q hr)) hp

theorem scrapePagesLoop_panic (good : List (Except String (List Cell))) :
    ∀ acc (p : Except String (List Cell)) rest,
      (∀ q ∈ good, ∃ es, scrapePage q = .ok es) →
      scrapePage p = .panicked →
      scrapePagesLoop (good ++ p :: rest) acc = .panicked := by
  induction good with
  | nil =>
    intro acc p rest _ hp
    rw [List.nil_append, scrapePagesLoop, hp]
  | cons q good ih =>
    intro acc p rest h hp
    obtain ⟨es, hes⟩ := h q (List.mem_cons_self q good)
    rw [List.cons_append, scrapePagesLoop, hes]
    show scrapePagesLoop (good ++ p :: rest) (es.foldl insertLowest acc) = _
    exact ih _ p rest (fun r hr => h r (List.mem_cons_of_mem q hr)) hp

/-- A sale-row cell whose price text ParseFloat rejects: the scrape run
panics on it. -/
def badCell : Cell := ⟨some "#D1DFFC", some "p?cn=Foo&x", "notaprice"⟩

/-- A well-formed sale-row cell for a card name and a price text. -/
def cellOf (nm p : String) : Cell :=
  ⟨some "#E6F4FF", some ("r?cn=" ++ nm ++ "&z"), p⟩

/-- A prior database state with a non-empty catalog, to observe what a
run leaves untouched. -/
def st0 : DbState := ⟨[⟨"old", "Old", 1⟩], ⟨0, none⟩⟩

/-- C4 counterexample: a run whose only page fetches fine but carries one
sale row with a malformed price text does NOT record the failure in
ScraperStats — the `panic(err)` of src/prices.go escapes (`none`: process
abort, stats never written), refuting the claim that any fetch-or-parse
failure ends with ScraperStats replaced by the current time and the
failure. -/
theorem c4_counterexample :
    scrapePricesPeriodic st0 5 (.ok ()) [.ok [badCell]] = none := by
  decide

/-- C4 (amended): an index-fetch error or a page fetch error (after any
run of clean pages) aborts the run with the catalog untouched and
ScraperStats wholly replaced by (now, the error); a run whose every page
scrapes cleanly wholly replaces the catalog with the reconciled entry set
and ScraperStats with (now, no error); but a malformed price text on a
sale row panics: no store is updated and the panic propagates.  The two
closing conjuncts evaluate a concrete successful run (full replacement,
minimum price per ID kept) and a concrete page-fetch failure. -/
theorem c4_scrape_amended :
    (∀ (st : DbState) (now : Nat) (e : String) pages,
      scrapePricesPeriodic st now (.error e) pages
        = some ⟨st.Prices, ⟨now, some e⟩⟩) ∧
    (∀ (st : DbState) (now : Nat) pages,
      (∀ p ∈ pages, ∃ es, scrapePage p = .ok es) →
      scrapePricesPeriodic st now (.ok ()) pages
        = some ⟨reconcileEntries (pages.flatMap pageEntries), ⟨now, none⟩⟩) ∧
    (∀ (st : DbState) (now : Nat) good (p : Except String (List Cell)) rest e,
      (∀ q ∈ good, ∃ es, scrapePage q = .ok es) →
      scrapePage p = .fetchErr e →
      scrapePricesPeriodic st now (.ok ()) (good ++ p :: rest)
        = some ⟨st.Prices, ⟨now, some e⟩⟩) ∧
    (∀ (st : DbState) (now : Nat) good (p : Except String (List Cell)) rest,
      (∀ q ∈ good, ∃ es, scrapePage q = .ok es) →
      scrapePage p = .panicked →
      scrapePricesPeriodic st now (.ok ()) (good ++ p :: rest) = none) ∧
    scrapePricesPeriodic st0 5 (.ok ())
      [.ok [cellOf "Foo" "5", cellOf "Foo" "3"], .ok [cellOf "Bar" "7"]]
      = some ⟨[⟨"foo", "Foo", 3⟩, ⟨"bar", "Bar", 7⟩], ⟨5, none⟩⟩ ∧
    scrapePricesPeriodic st0 5 (.ok ()) [.error "http 500"]
      = some ⟨st0.Prices, ⟨5, some "http 500"⟩⟩ := by
  refine ⟨fun st now e pages => rfl, fun st now pages h => ?_,
    fun st now good p rest e h hp => ?_, fun st now good p rest h hp => ?_,
    by decide, by decide⟩
  · have hl : scrapePrices (.ok ()) pages
        = .ok (reconcileEntries (pages.flatMap pageEntries)) :=
      scrapePagesLoop_ok pages [] h
    rw [scrapePricesPeriodic, hl]
  · have hl : scrapePrices (.ok ()) (good ++ p :: rest) = .failed e :=
      scrapePagesLoop_fail good [] p rest e h hp
    rw [scrapePricesPeriodic, hl]
  · have hl : scrapePrices (.ok ()) (good ++ p :: rest) = .panicked :=
      scrapePagesLoop_panic good [] p rest h hp
    rw [scrapePricesPeriodic, hl]

/-! ### The snapshot clone and aliasing (claim C9)

`func (s *Snapshot) Clone()` (src/database.go) copies every card entry
into a fresh allocation (`card := *s.Decklist[i]; ret.Decklist[i] =
&card`).  Whether later mutations of the clone can reach the original is
a question about the heap, so this claim gets an explicit heap model: the
heap is a list of card entries, a reference is an index into it, and a
heap snapshot holds references in place of entries. -/

/-- Dereference (out-of-range reads return the zero entry; the claims
only read valid references). -/
def heapGet (h : List CardEntry) (r : Nat) : CardEntry :=
  h.getD r ⟨"", 0, 0, false⟩

/-- A snapshot whose card lists are heap references. -/
structure HSnapshot where
  Date : Nat
  Decklist : List Nat
  Sideboard : List Nat
  Commander : CommanderEntry
  IsGrandfatherLegal : Bool
deriving DecidableEq

/-- The entry-copy loop of `Clone`: copy each referenced entry into a
fresh cell at the end of the heap; returns the grown heap and the fresh
references, in order. -/
def cloneRefs : List CardEntry → List Nat → List CardEntry × List Nat
  | h, [] => (h, [])
  | h, r :: rs =>
    ((cloneRefs (h ++ [heapGet h r]) rs).1,
      h.length :: (cloneRefs (h ++ [heapGet h r]) rs).2)

/-- Models `func (s *Snapshot) Clone()` on the heap: scalar fields are
copied, and both card lists get fresh cells. -/
def cloneH (h : List CardEntry) (s : HSnapshot) : List CardEntry × HSnapshot :=
  ((cloneRefs (cloneRefs h s.Decklist).1 s.Sideboard).1,
    ⟨s.Date, (cloneRefs h s.Decklist).2,
      (cloneRefs (cloneRefs h s.Decklist).1 s.Sideboard).2,
      s.Commander, s.IsGrandfatherLegal⟩)

/-- The snapshot total price read through the heap, mirroring `Snapshot.TotalPrice`. -/
def TotalPriceH (h : List CardEntry) (s : HSnapshot) : Money :=
  let r1 := s.Decklist.foldl (fun r c => r + (heapGet h c).TotalPrice) Free
  let r2 := s.Sideboard.foldl (fun r c => r + (heapGet h c).TotalPrice) r1
  if s.Commander.IsPresent then r2 + s.Commander.Price else r2

/-- In-place mutations of card entries: each pair overwrites the entry at
a reference. -/
def applyMuts (h : List CardEntry) (muts : List (Nat × CardEntry)) :
    List CardEntry :=
  muts.foldl (fun h m => h.set m.1 m.2) h

theorem cloneRefs_heap (refs : List Nat) :
    ∀ h, ∃ ext, (cloneRefs h refs).1 = h ++ ext := by
  induction refs with
  | nil => intro h; exact ⟨[], (List.append_nil h).symm⟩
  | cons r rs ih =>
    intro h
    obtain ⟨ext, hext⟩ := ih (h ++ [heapGet h r])
    refine ⟨[heapGet h r] ++ ext, ?_⟩
    rw [cloneRefs]
    show (cloneRefs (h ++ [heapGet h r]) rs).1 = _
    rw [hext, List.append_assoc]

theorem cloneRefs_refs_ge (refs : List Nat) :
    ∀ h, ∀ r2 ∈ (cloneRefs h refs).2, h.length ≤ r2 := by
  induction refs with
  | nil =>
    intro h r2 hr2
    simp [cloneRefs] at hr2
  | cons r rs ih =>
    intro h r2 hr2
    have hr2' : r2 ∈ h.length :: (cloneRefs (h ++ [heapGet h r]) rs).2 := hr2
    rcases List.mem_cons.mp hr2' with he | he
    · rw [he]
    · have := ih (h ++ [heapGet h r]) r2 he
      rw [List.length_append] at this
      omega

theorem heapGet_append (h ext : List CardEntry) (r : Nat)
    (hr : r < h.length) : heapGet (h ++ ext) r = heapGet h r := by
  rw [heapGet, heapGet, List.getD_eq_getElem?_getD, List.getD_eq_getElem?_getD,
    List.getElem?_append_left hr]

theorem heapGet_set_ne (h : List CardEntry) (r r2 : Nat) (c : CardEntry)
    (hne : r2 ≠ r) : heapGet (h.set r2 c) r = heapGet h r := by
  rw [heapGet, heapGet, List.getD_eq_getElem?_getD, List.getD_eq_getElem?_getD,
    List.getElem?_set_ne hne]

theorem foldl_price_congr (h1 h2 : List CardEntry) (l : List Nat)
    (hagree : ∀ r ∈ l, heapGet h1 r = heapGet h2 r) :
    ∀ acc : Money, l.foldl (fun r c => r + (heapGet h1 c).TotalPrice) acc
      = l.foldl (fun r c => r + (heapGet h2 c).TotalPrice) acc := by
  induction l with
  | nil => intro acc; rfl
  | cons r rs ih =>
    intro acc
    rw [List.foldl_cons, List.foldl_cons,
      hagree r (List.mem_cons_self r rs)]
    exact ih (fun r2 hr2 => hagree r2 (List.mem_cons_of_mem r hr2)) _

theorem totalPriceH_congr (h1 h2 : List CardEntry) (s : HSnapshot)
    (hd : ∀ r ∈ s.Decklist, heapGet h1 r = heapGet h2 r)
    (hs : ∀ r ∈ s.Sideboard, heapGet h1 r = heapGet h2 r) :
    TotalPriceH h1 s = TotalPriceH h2 s := by
  rw [TotalPriceH, TotalPriceH, foldl_price_congr h1 h2 _ hd,
    foldl_price_congr h1 h2 _ hs]

theorem applyMuts_heapGet (muts : List (Nat × CardEntry)) :
    ∀ (h : List CardEntry) (r : Nat), (∀ m ∈ muts, r ≠ m.1) →
      heapGet (applyMuts h muts) r = heapGet h r := by
  induction muts with
  | nil => intro h r _; rfl
  | cons m ms ih =>
    intro h r hne
    rw [applyMuts, List.foldl_cons]
    have h1 := ih (h.set m.1 m.2) r fun m2 hm2 => hne m2 (List.mem_cons_of_mem m hm2)
    rw [applyMuts] at h1
    rw [h1, heapGet_set_ne h r m.1 m.2 (hne m (List.mem_cons_self m ms)).symm]

/-- C9: clone a snapshot through the heap, then mutate the clone's card
entries arbitrarily (any list of overwrites at the clone's decklist or
sideboard references): the original snapshot's total price — and every
card entry the original references — is unchanged, because the clone's
references are all fresh cells. -/
theorem c9_clone_no_alias (h : List CardEntry) (s : HSnapshot)
    (muts : List (Nat × CardEntry))
    (hd : ∀ r ∈ s.Decklist, r < h.length)
    (hs : ∀ r ∈ s.Sideboard, r < h.length)
    (hm : ∀ m ∈ muts, m.1 ∈ (cloneH h s).2.Decklist ∨
      m.1 ∈ (cloneH h s).2.Sideboard) :
    TotalPriceH (applyMuts (cloneH h s).1 muts) s = TotalPriceH h s ∧
    (∀ r, r < h.length →
      heapGet (applyMuts (cloneH h s).1 muts) r = heapGet h r) := by
  have hagree : ∀ r, r < h.length →
      heapGet (applyMuts (cloneH h s).1 muts) r = heapGet h r := by
    intro r hr
    have hmut : ∀ m ∈ muts, r ≠ m.1 := by
      intro m hmm heq
      rcases hm m hmm with hin | hin
      · have := cloneRefs_refs_ge s.Decklist h m.1 hin
        omega
      · have h2 := cloneRefs_refs_ge s.Sideboard (cloneRefs h s.Decklist).1 m.1 hin
        obtain ⟨ext, hext⟩ := cloneRefs_heap s.Decklist h
        rw [hext, List.length_append] at h2
        omega
    rw [applyMuts_heapGet muts _ r hmut]
    obtain ⟨ext1, hext1⟩ := cloneRefs_heap s.Decklist h
    obtain ⟨ext2, hext2⟩ := cloneRefs_heap s.Sideboard (cloneRefs h s.Decklist).1
    show heapGet (cloneRefs (cloneRefs h s.Decklist).1 s.Sideboard).1 r = _
    rw [hext2, hext1, List.append_assoc]
    exact heapGet_append h (ext1 ++ ext2) r hr
  refine ⟨?_, hagree⟩
  exact totalPriceH_congr _ _ s (fun r hr => hagree r (hd r hr))
    (fun r hr => hagree r (hs r hr))

/-- A tiny heap: one two-dollar card referenced by the snapshot. -/
def heap0 : List CardEntry := [⟨"Bolt", 1, 2, false⟩]

/-- The snapshot holding the single reference. -/
def hsnap0 : HSnapshot := ⟨0, [0], [], ⟨"", 0, false, false⟩, false⟩

/-- Overwrite the clone's single (fresh) decklist cell with a much more
expensive entry. -/
def muts0 : List (Nat × CardEntry) := [(1, ⟨"Bolt", 1, 99, false⟩)]

/-- C9 witness: the no-aliasing theorem applied at a concrete heap,
snapshot and mutation list. -/
theorem c9_clone_no_alias_witness :
    TotalPriceH (applyMuts (cloneH heap0 hsnap0).1 muts0) hsnap0
      = TotalPriceH heap0 hsnap0 ∧
    (∀ r, r < heap0.length →
      heapGet (applyMuts (cloneH heap0 hsnap0).1 muts0) r = heapGet heap0 r) :=
  c9_clone_no_alias heap0 hsnap0 muts0 (by decide) (by decide) (by decide)

end Donkeytownsfolk
